import Mathlib

/-!
Shallow embedding of the fuzzy-matching crate (museun/fuzzy).

Strings are modelled as `List Char` (Rust `&str` viewed as its sequence of
Unicode code points, with `utf8Len` recovering the byte length that Rust's
`str::len` reports).  The `f32` scores of the crate are modelled by `FScore`:
either one of the two infinite sentinels or a finite rational.  Every
arithmetic operation the crate performs on scores (adding finite constants,
`max`, comparisons) is exact in this model; no NaN and no signed zero can
arise on any path of the embedded code, so rational arithmetic coincides with
the `f32` semantics whenever the compared quantities differ by more than the
floating-point rounding error, which is the case for every concrete input
appearing below.

`src/lib.rs` and `src/score/mod.rs` each contain a scorer; their shared parts
(the constants, `Metric::classify`, `character_match_bonus`,
`candidate_match_bonuses`, `is_separator`, the `Score` comparator) are
textually identical in the two files and are embedded once.  The two DP inner
loops differ and are embedded separately (`Lib.score` for `src/lib.rs`,
`ScoreMod.score` for `src/score/mod.rs`).

Fallible behaviour (an out-of-bounds matrix read / `usize` underflow, which
panics in Rust) is modelled by `Option`: `none` means the Rust code panics.
-/

namespace Fuzzy

/-- Model of the `f32` values the crate stores in `Score.score`:
`-∞` (`SCORE_MIN`), a finite value, or `+∞` (`SCORE_MAX`). -/
inductive FScore where
  | negInf : FScore
  | fin : ℚ → FScore
  | posInf : FScore
deriving DecidableEq, Repr

/-- `f32` addition restricted to the values reachable in the crate:
the code never adds two opposite infinities, so no NaN case is needed
(`negInf` is returned there; that case is unreachable). -/
def FScore.add : FScore → FScore → FScore
  | .negInf, _ => .negInf
  | _, .negInf => .negInf
  | .fin a, .fin b => .fin (a + b)
  | _, _ => .posInf

/-- `f32` strict `<` on NaN-free values. -/
def FScore.blt : FScore → FScore → Bool
  | .negInf, .negInf => false
  | .negInf, _ => true
  | .fin _, .negInf => false
  | .fin a, .fin b => decide (a < b)
  | .fin _, .posInf => true
  | .posInf, _ => false

/-- `f32::max` on NaN-free values. -/
def FScore.max (a b : FScore) : FScore := if FScore.blt a b then b else a

/-- `f32::total_cmp` restricted to the NaN-free, signed-zero-free values of
this development, where it agrees with the numeric order. -/
def FScore.totalCmp (a b : FScore) : Ordering :=
  if FScore.blt a b then Ordering.lt
  else if FScore.blt b a then Ordering.gt
  else Ordering.eq

/-- `f32::partial_cmp`: `none` exactly on NaN, which never occurs here,
so the result is always `some`; the `Option` shape is kept because the
source calls `.unwrap_or(..)` on it. -/
def FScore.pc (a b : FScore) : Option Ordering := some (FScore.totalCmp a b)

/-- `f32` `==` (PartialEq) on NaN-free values. -/
def FScore.beq : FScore → FScore → Bool
  | .negInf, .negInf => true
  | .posInf, .posInf => true
  | .fin a, .fin b => decide (a = b)
  | _, _ => false

/-! The `params` constants (`mod params` in `src/lib.rs`; the identical
`Params` consts in the other variant). The decimal `f32` literals are read
as exact rationals. -/

def params.SCORE_MIN : FScore := FScore.negInf
def params.SCORE_MAX : FScore := FScore.posInf
def params.SCORE_GAP_LEADING : ℚ := -0.005
def params.SCORE_GAP_INNER : ℚ := -0.01
def params.SCORE_GAP_TRAILING : ℚ := -0.005
def params.SCORE_MATCH_CONSECUTIVE : ℚ := 1.0
def params.SCORE_MATCH_SLASH : ℚ := 0.9
def params.SCORE_MATCH_WORD : ℚ := 0.8
def params.SCORE_MATCH_CAPITAL : ℚ := 0.7
def params.SCORE_MATCH_DOT : ℚ := 0.6
def params.CANDIDATE_MAX_BYTES : Nat := 2048
def params.CANDIDATE_MAX_CHARS : Nat := 1024

/-- Models Rust `char::to_lowercase`, which yields a (possibly multi-code-point)
iterator.  The model is exact on ASCII and maps every other code point to
itself; every concrete character appearing in this development is ASCII.
Rust's full Unicode lowercasing table is out of scope, and no theorem below
depends on the table beyond ASCII: the statements compare both sides through
this same function. -/
def to_lowercase (c : Char) : List Char := [c.toLower]

/-- The comparison `a.to_lowercase().eq(b.to_lowercase())` used by both
`has_match` and the scorers (equality of the lowercased sequences). -/
def charEq (a b : Char) : Bool := decide (to_lowercase a = to_lowercase b)

/-- `is_separator` from the source. -/
def is_separator (ch : Char) : Bool := ch == ' ' || ch == '-' || ch == '_'

/-- `character_match_bonus` from the source.  `char::is_uppercase` /
`char::is_lowercase` are modelled by the ASCII `Char.isUpper` / `Char.isLower`
(exact on ASCII; every concrete character below is ASCII). -/
def character_match_bonus (current previous : Char) : ℚ :=
  if current.isUpper && previous.isLower then params.SCORE_MATCH_CAPITAL
  else if previous == '/' then params.SCORE_MATCH_SLASH
  else if previous == '.' then params.SCORE_MATCH_DOT
  else if is_separator previous then params.SCORE_MATCH_WORD
  else 0

/-- Helper: the stateful `map` inside `candidate_match_bonuses`, carrying the
previous character. -/
def candidateMatchBonusesGo : Char → List Char → List ℚ
  | _, [] => []
  | old, ch :: rest => character_match_bonus ch old :: candidateMatchBonusesGo ch rest

/-- `candidate_match_bonuses` from the source: position 0 is treated as if
preceded by `'/'`. -/
def candidate_match_bonuses (candidate : List Char) : List ℚ :=
  candidateMatchBonusesGo '/' candidate

/-- Rust `str::len`: the UTF-8 byte length of a string. -/
def utf8Len (s : List Char) : Nat := (s.map Char.utf8Size).sum

/-- The `Metric` enum (identical in both source files). -/
inductive Metric where
  | lengths : Nat → Nat → Metric
  | score : FScore → Metric
deriving DecidableEq, Repr

/-- `Metric::classify` (textually identical in both source files). -/
def Metric.classify (query candidate : List Char) : Metric :=
  if utf8Len candidate > params.CANDIDATE_MAX_BYTES || query.isEmpty then
    Metric.score params.SCORE_MIN
  else
    let q := query.length
    let c := candidate.length
    if q == c then Metric.score params.SCORE_MAX
    else if c > params.CANDIDATE_MAX_CHARS then Metric.score params.SCORE_MIN
    else Metric.lengths q c

/-- The `Score` result struct (identical in both source files). -/
structure Score where
  index : Nat
  score : FScore
deriving DecidableEq, Repr

/-- `Score::partial_cmp` (identical in both source files):
`self.score.partial_cmp(&other.score).unwrap_or(Less).reverse()`, wrapped in
`Some`.  Rust `Ordering::reverse` is `Ordering.swap`. -/
def Score.pcmp (a b : Score) : Option Ordering :=
  some (((FScore.pc a.score b.score).getD Ordering.lt).swap)

/-- `Score::eq` from `src/lib.rs`: `self.score.total_cmp(&other.score).is_eq()`. -/
def Score.beqTotal (a b : Score) : Bool := (FScore.totalCmp a.score b.score).isEq

/-- `Score::eq` from `src/score/mod.rs`: `self.score == other.score` (`f32` `==`). -/
def Score.beqF (a b : Score) : Bool := FScore.beq a.score b.score

/-- One step of the candidate iterator inside `has_match`'s `chars.any(..)`:
advance to (and consume) the first candidate code point whose lowercasing
equals the query code point's, returning the remaining suffix. -/
def seek (q : Char) : List Char → Option (List Char)
  | [] => none
  | c :: rest => if charEq c q then some rest else seek q rest

/-- `has_match` from `src/score/mod.rs`; `src/lib.rs` inlines the identical
iterator logic in `search`'s filter.  The candidate iterator persists across
query characters (`chars.any` consumes up to and including each match). -/
def has_match : List Char → List Char → Bool
  | [], _ => true
  | q :: qs, cs =>
    match seek q cs with
    | some rest => has_match qs rest
    | none => false

/-- Inner loop of the `src/score/mod.rs` DP, one row (one query character):
`j` is the current candidate position, `prev` the running `prev_score`.
Returns the pair (ending row, overall row) from position `j` on.
The row stores the fresh match value in `best_score_w_ending` and the running
maximum in `best_score_overall`. -/
def modRowGo (qc : Char) (first : Bool) (gap : ℚ)
    (prevEnding prevOverall : List FScore) (bonuses : List ℚ) :
    Nat → FScore → List Char → List FScore × List FScore
  | _, _, [] => ([], [])
  | j, prev, ch :: rest =>
    if charEq qc ch then
      let s : FScore :=
        if first then
          FScore.fin ((j : ℚ) * params.SCORE_GAP_LEADING + bonuses.getD j 0)
        else if j != 0 then
          FScore.max
            (FScore.add (prevOverall.getD (j - 1) params.SCORE_MIN)
              (FScore.fin (bonuses.getD j 0)))
            (FScore.add (prevEnding.getD (j - 1) params.SCORE_MIN)
              (FScore.fin params.SCORE_MATCH_CONSECUTIVE))
        else params.SCORE_MIN
      let prev' := FScore.max s (FScore.add prev (FScore.fin gap))
      let eo := modRowGo qc first gap prevEnding prevOverall bonuses (j + 1) prev' rest
      (s :: eo.1, prev' :: eo.2)
    else
      let prev' := FScore.add prev (FScore.fin gap)
      let eo := modRowGo qc first gap prevEnding prevOverall bonuses (j + 1) prev' rest
      (params.SCORE_MIN :: eo.1, prev' :: eo.2)

/-- Inner loop of the `src/lib.rs` DP, one row.  It differs from
`modRowGo` in the match case: the gap penalty is added to the fresh match
value before taking the maximum with the running score
(`score = score.max(res + gap)`), and both matrices receive the running
maximum (`(ending[[i, j]], overall[[i, j]]) = (score, score)`). -/
def libRowGo (qc : Char) (first : Bool) (gap : ℚ)
    (prevEnding prevOverall : List FScore) (bonuses : List ℚ) :
    Nat → FScore → List Char → List FScore × List FScore
  | _, _, [] => ([], [])
  | j, prev, ch :: rest =>
    if charEq qc ch then
      let res : FScore :=
        if first then
          FScore.fin ((j : ℚ) * params.SCORE_GAP_LEADING + bonuses.getD j 0)
        else if j != 0 then
          FScore.max
            (FScore.add (prevOverall.getD (j - 1) params.SCORE_MIN)
              (FScore.fin (bonuses.getD j 0)))
            (FScore.add (prevEnding.getD (j - 1) params.SCORE_MIN)
              (FScore.fin params.SCORE_MATCH_CONSECUTIVE))
        else params.SCORE_MIN
      let prev' := FScore.max prev (FScore.add res (FScore.fin gap))
      let eo := libRowGo qc first gap prevEnding prevOverall bonuses (j + 1) prev' rest
      (prev' :: eo.1, prev' :: eo.2)
    else
      let prev' := FScore.add prev (FScore.fin gap)
      let eo := libRowGo qc first gap prevEnding prevOverall bonuses (j + 1) prev' rest
      (params.SCORE_MIN :: eo.1, prev' :: eo.2)

/-- Outer loop of the `src/score/mod.rs` DP: iterate the query characters,
carrying the previous (ending, overall) rows; returns the last computed pair
of rows (row `q - 1` when the query is nonempty). -/
def modDpGo (candidate : List Char) (bonuses : List ℚ) (qlen : Nat) :
    List FScore → List FScore → Nat → List Char → List FScore × List FScore
  | prevE, prevO, _, [] => (prevE, prevO)
  | prevE, prevO, i, qc :: rest =>
    let gap := if i == qlen - 1 then params.SCORE_GAP_TRAILING else params.SCORE_GAP_INNER
    let eo := modRowGo qc (i == 0) gap prevE prevO bonuses 0 params.SCORE_MIN candidate
    modDpGo candidate bonuses qlen eo.1 eo.2 (i + 1) rest

/-- Outer loop of the `src/lib.rs` DP. -/
def libDpGo (candidate : List Char) (bonuses : List ℚ) (qlen : Nat) :
    List FScore → List FScore → Nat → List Char → List FScore × List FScore
  | prevE, prevO, _, [] => (prevE, prevO)
  | prevE, prevO, i, qc :: rest =>
    let gap := if i == qlen - 1 then params.SCORE_GAP_TRAILING else params.SCORE_GAP_INNER
    let eo := libRowGo qc (i == 0) gap prevE prevO bonuses 0 params.SCORE_MIN candidate
    libDpGo candidate bonuses qlen eo.1 eo.2 (i + 1) rest

/-- `score` from `src/score/mod.rs`.  The matrices start as `zeros((q, c))`;
the final read is `best_score_overall[[q_len - 1, c_len - 1]]`, modelled by a
lookup in the last computed overall row (row `q - 1`, since the `lengths`
branch implies a nonempty query).  A lookup that is out of bounds — exactly
the `c_len = 0` case, where `c_len - 1` underflows and the matrix read panics
in Rust — yields `none`. -/
def ScoreMod.score (query candidate : List Char) (index : Nat) : Option Score :=
  match Metric.classify query candidate with
  | Metric.score s => some ⟨index, s⟩
  | Metric.lengths q c =>
    let bonuses := candidate_match_bonuses candidate
    let init := List.replicate c (FScore.fin 0)
    let eo := modDpGo candidate bonuses q init init 0 query
    (eo.2.get? (c - 1)).map (fun v => ⟨index, v⟩)

/-- `score` from `src/lib.rs` (same structure, `libRowGo` inner loop). -/
def Lib.score (query candidate : List Char) (index : Nat) : Option Score :=
  match Metric.classify query candidate with
  | Metric.score s => some ⟨index, s⟩
  | Metric.lengths q c =>
    let bonuses := candidate_match_bonuses candidate
    let init := List.replicate c (FScore.fin 0)
    let eo := libDpGo candidate bonuses q init init 0 query
    (eo.2.get? (c - 1)).map (fun v => ⟨index, v⟩)

/-- The boolean order used by the sort in `search`:
`left.partial_cmp(right).unwrap_or(Less)` is not `Greater`. -/
def scoreLe (a b : Score) : Bool :=
  decide (((Score.pcmp a b).getD Ordering.lt) ≠ Ordering.gt)

/-- The filter-and-score fold inside `search` from `src/lib.rs`: walk the
candidates with their `enumerate` index, keep those passing the (inlined)
`has_match` test, and score each kept candidate with its index.  A panic in
`score` propagates (`none`). -/
def searchGo (query : List Char) : Nat → List (List Char) → Option (List Score)
  | _, [] => some []
  | i, c :: rest =>
    if has_match query c then
      match Lib.score query c i, searchGo query (i + 1) rest with
      | some s, some l => some (s :: l)
      | _, _ => none
    else searchGo query (i + 1) rest

/-- `search` from `src/lib.rs`.  `sort_unstable_by` sorts by the comparator;
it is modelled by `mergeSort` with `scoreLe` (the claims below only depend on
the resulting multiset and on sortedness, not on the order among ties). -/
def search (query : List Char) (candidates : List (List Char)) : Option (List Score) :=
  (searchGo query 0 candidates).map (fun l => l.mergeSort scoreLe)

/-- Modelled from the spec: "every code point of `query`, compared
case-insensitively, can be matched to a distinct code point of `candidate` in
strictly increasing position order (a subsequence test)", with folded-form
equality (`to_lowercase`) as the equality test. -/
inductive SubseqRel : List Char → List Char → Prop where
  | nil : ∀ cs, SubseqRel [] cs
  | cons : ∀ {q qs c cs}, to_lowercase q = to_lowercase c →
      SubseqRel qs cs → SubseqRel (q :: qs) (c :: cs)
  | skip : ∀ {qs c cs}, SubseqRel qs cs → SubseqRel qs (c :: cs)

end Fuzzy

namespace Fuzzy

/-! ### Order facts about `FScore` -/

theorem FScore.blt_irrefl (a : FScore) : FScore.blt a a = false := by
  cases a <;> simp [FScore.blt]

theorem FScore.blt_asymm {a b : FScore} (h : FScore.blt a b = true) :
    FScore.blt b a = false := by
  cases a <;> cases b <;> simp_all [FScore.blt]
  exact le_of_lt h

theorem FScore.blt_false_trans {a b c : FScore} (h1 : FScore.blt a b = false)
    (h2 : FScore.blt b c = false) : FScore.blt a c = false := by
  cases a <;> cases b <;> cases c <;> simp_all [FScore.blt]
  exact le_trans h2 h1

theorem FScore.blt_false_antisymm {a b : FScore} (h1 : FScore.blt a b = false)
    (h2 : FScore.blt b a = false) : a = b := by
  cases a <;> cases b <;> simp_all [FScore.blt]
  exact le_antisymm h2 h1

theorem scoreLe_eq (a b : Score) : scoreLe a b = !FScore.blt a.score b.score := by
  unfold scoreLe Score.pcmp FScore.pc FScore.totalCmp
  cases h1 : FScore.blt a.score b.score <;> cases h2 : FScore.blt b.score a.score <;>
    simp [h1, h2, Ordering.swap]

theorem FScore.totalCmp_isEq {a b : FScore} :
    (FScore.totalCmp a b).isEq = true ↔ a = b := by
  unfold FScore.totalCmp
  split
  · rename_i h1
    simp only [Ordering.isEq]
    constructor
    · intro h; cases h
    · rintro rfl; rw [FScore.blt_irrefl] at h1; cases h1
  · split
    · rename_i h2
      simp only [Ordering.isEq]
      constructor
      · intro h; cases h
      · rintro rfl; rw [FScore.blt_irrefl] at h2; cases h2
    · rename_i h1 h2
      simp only [Ordering.isEq]
      constructor
      · intro _
        exact FScore.blt_false_antisymm (Bool.of_not_eq_true h1) (Bool.of_not_eq_true h2)
      · intro _; trivial

theorem Score.beqTotal_eq_decide (a b : Score) :
    Score.beqTotal a b = decide (a.score = b.score) := by
  cases hb : Score.beqTotal a b
  · cases hd : decide (a.score = b.score)
    · rfl
    · have := FScore.totalCmp_isEq.mpr (of_decide_eq_true hd)
      rw [Score.beqTotal] at hb
      rw [hb] at this
      cases this
  · have := FScore.totalCmp_isEq.mp hb
    rw [decide_eq_true this]

theorem Score.beqF_eq_decide (a b : Score) :
    Score.beqF a b = decide (a.score = b.score) := by
  unfold Score.beqF
  cases a.score <;> cases b.score <;> simp [FScore.beq]

/-- C8.  The `Score` comparator is a well-defined total order: `partial_cmp`
always returns `Some` (it never panics), result `a` precedes result `b`
(comparator says `Less`) exactly when `a.score > b.score`, a tie yields
`Equal` (the left-hand operand is not treated as greater), and the induced
reflexive order `scoreLe` is total and transitive. -/
theorem C8_comparator_total_order (a b c : Score) :
    (Score.pcmp a b).isSome = true ∧
    (Score.pcmp a b = some Ordering.lt ↔ FScore.blt b.score a.score = true) ∧
    (a.score = b.score → Score.pcmp a b = some Ordering.eq) ∧
    (scoreLe a b = true ∨ scoreLe b a = true) ∧
    (scoreLe a b = true → scoreLe b c = true → scoreLe a c = true) := by
  refine ⟨rfl, ?_, ?_, ?_, ?_⟩
  · unfold Score.pcmp FScore.pc FScore.totalCmp
    cases h1 : FScore.blt a.score b.score
    · cases h2 : FScore.blt b.score a.score <;> simp [h1, h2, Ordering.swap]
    · have h2 := FScore.blt_asymm h1
      simp [h1, h2, Ordering.swap]
  · intro h
    unfold Score.pcmp FScore.pc FScore.totalCmp
    rw [h, FScore.blt_irrefl]
    simp [Ordering.swap]
  · rw [scoreLe_eq, scoreLe_eq]
    cases h1 : FScore.blt a.score b.score
    · left; rfl
    · right; rw [FScore.blt_asymm h1]; rfl
  · rw [scoreLe_eq, scoreLe_eq, scoreLe_eq]
    intro h1 h2
    rw [Bool.not_eq_true'] at h1 h2 ⊢
    exact FScore.blt_false_trans h1 h2

/-- C8 witness: the comparator applied at a concrete tie. -/
theorem C8_comparator_witness :
    Score.pcmp ⟨0, FScore.fin 1⟩ ⟨1, FScore.fin 1⟩ = some Ordering.eq :=
  (C8_comparator_total_order ⟨0, FScore.fin 1⟩ ⟨1, FScore.fin 1⟩ ⟨2, FScore.fin 0⟩).2.2.1 rfl

/-- C10.  Both `Score` equality implementations (`total_cmp`-based in
`src/lib.rs`, `f32 ==` in `src/score/mod.rs`) are determined solely by the
`score` field and ignore the caller-supplied `index`; values carrying
different ids but equal scores compare equal; and the relation is a total
equivalence (reflexive, symmetric, transitive). -/
theorem C10_eq_ignores_index (a b c : Score) :
    (Score.beqTotal a b = true ↔ a.score = b.score) ∧
    (Score.beqF a b = true ↔ a.score = b.score) ∧
    (∀ (i j : Nat) (s : FScore), Score.beqTotal ⟨i, s⟩ ⟨j, s⟩ = true) ∧
    Score.beqTotal a a = true ∧
    Score.beqTotal a b = Score.beqTotal b a ∧
    (Score.beqTotal a b = true → Score.beqTotal b c = true →
      Score.beqTotal a c = true) := by
  refine ⟨?_, ?_, ?_, ?_, ?_, ?_⟩
  · rw [Score.beqTotal_eq_decide]; exact decide_eq_true_iff
  · rw [Score.beqF_eq_decide]; exact decide_eq_true_iff
  · intro i j s; rw [Score.beqTotal_eq_decide]; exact decide_eq_true rfl
  · rw [Score.beqTotal_eq_decide]; exact decide_eq_true rfl
  · rw [Score.beqTotal_eq_decide, Score.beqTotal_eq_decide]
    exact decide_eq_decide.mpr eq_comm
  · rw [Score.beqTotal_eq_decide, Score.beqTotal_eq_decide, Score.beqTotal_eq_decide]
    intro h1 h2
    exact decide_eq_true ((of_decide_eq_true h1).trans (of_decide_eq_true h2))

/-- C10 witness: transitivity applied at concrete equal-score values with
three distinct ids. -/
theorem C10_eq_witness :
    Score.beqTotal ⟨0, FScore.fin 1⟩ ⟨2, FScore.fin 1⟩ = true :=
  (C10_eq_ignores_index ⟨0, FScore.fin 1⟩ ⟨1, FScore.fin 1⟩ ⟨2, FScore.fin 1⟩).2.2.2.2.2
    (by decide) (by decide)

/-- C3 (amended).  The scorer of `src/score/mod.rs` returns exactly the
spec's literal fixture values: a leading gap for `("a", "*a")`, two leading
gaps for `("a", "*ba")`, and leading gap plus slash / capital / dot bonus
for `("a", "/a")`, `("a", "bA")`, `("a", ".a")`.  (The `src/lib.rs` variant
does not; see the counterexample.) -/
theorem C3_fixture_values_mod :
    ScoreMod.score "a".toList "*a".toList 0 =
      some ⟨0, FScore.fin params.SCORE_GAP_LEADING⟩ ∧
    ScoreMod.score "a".toList "*ba".toList 0 =
      some ⟨0, FScore.fin (2 * params.SCORE_GAP_LEADING)⟩ ∧
    ScoreMod.score "a".toList "/a".toList 0 =
      some ⟨0, FScore.fin (params.SCORE_GAP_LEADING + params.SCORE_MATCH_SLASH)⟩ ∧
    ScoreMod.score "a".toList "bA".toList 0 =
      some ⟨0, FScore.fin (params.SCORE_GAP_LEADING + params.SCORE_MATCH_CAPITAL)⟩ ∧
    ScoreMod.score "a".toList ".a".toList 0 =
      some ⟨0, FScore.fin (params.SCORE_GAP_LEADING + params.SCORE_MATCH_DOT)⟩ := by
  refine ⟨?_, ?_, ?_, ?_, ?_⟩ <;> with_unfolding_all decide

/-- C3 counterexample: the `src/lib.rs` scorer misses the first fixture — it
adds the gap penalty to a freshly matched position, so `score("a", "*a")` is
`SCORE_GAP_LEADING + SCORE_GAP_TRAILING`, not `SCORE_GAP_LEADING`. -/
theorem C3_lib_fixture_counterexample :
    Lib.score "a".toList "*a".toList 0 =
      some ⟨0, FScore.fin (params.SCORE_GAP_LEADING + params.SCORE_GAP_TRAILING)⟩ ∧
    params.SCORE_GAP_LEADING + params.SCORE_GAP_TRAILING ≠ params.SCORE_GAP_LEADING := by
  refine ⟨by with_unfolding_all decide, by with_unfolding_all decide⟩

set_option maxRecDepth 100000 in
/-- C9.  Word-boundary preference holds strictly for the `src/lib.rs` scorer
(and for the `src/score/mod.rs` one): `score("amor", "app/models/order")` is
strictly greater than `score("amor", "app/models/zrder")`. -/
theorem C9_word_boundary_preference :
    Lib.score "amor".toList "app/models/order".toList 0 =
      some ⟨0, FScore.fin (147 / 40)⟩ ∧
    Lib.score "amor".toList "app/models/zrder".toList 0 =
      some ⟨0, FScore.fin (533 / 200)⟩ ∧
    FScore.blt (FScore.fin (533 / 200)) (FScore.fin (147 / 40)) = true ∧
    ScoreMod.score "amor".toList "app/models/order".toList 0 =
      some ⟨0, FScore.fin (719 / 200)⟩ ∧
    ScoreMod.score "amor".toList "app/models/zrder".toList 0 =
      some ⟨0, FScore.fin (539 / 200)⟩ ∧
    FScore.blt (FScore.fin (539 / 200)) (FScore.fin (719 / 200)) = true := by
  refine ⟨?_, ?_, ?_, ?_, ?_, ?_⟩ <;> with_unfolding_all decide

/-- C2 (amended).  The two scorers agree whenever `Metric::classify`
short-circuits (empty query, oversized candidate, equal code-point counts);
on the DP path they differ (see the counterexample): `src/lib.rs` computes
`score = score.max(res + gap)` where `src/score/mod.rs` computes
`prev_score = score.max(prev_score + gap_score)`. -/
theorem C2_classified_agreement (q c : List Char) (i : Nat) (s : FScore)
    (h : Metric.classify q c = Metric.score s) :
    Lib.score q c i = ScoreMod.score q c i := by
  unfold Lib.score ScoreMod.score
  rw [h]

/-- C2 witness: agreement at the concrete classified input `("", "")`. -/
theorem C2_classified_agreement_witness :
    Lib.score [] [] 0 = ScoreMod.score [] [] 0 :=
  C2_classified_agreement [] [] 0 params.SCORE_MIN (by decide)

/-- C2 counterexample: the two scorers disagree on `("a", "*a")`
(`-0.01` in `src/lib.rs` against `-0.005` in `src/score/mod.rs`). -/
theorem C2_scorers_differ_counterexample :
    Lib.score "a".toList "*a".toList 0 ≠ ScoreMod.score "a".toList "*a".toList 0 := by
  with_unfolding_all decide

/-! ### Classification facts -/

theorem classify_min_of (q c : List Char)
    (h : q = [] ∨ utf8Len c > params.CANDIDATE_MAX_BYTES ∨
      (c.length > params.CANDIDATE_MAX_CHARS ∧ q.length ≠ c.length)) :
    Metric.classify q c = Metric.score params.SCORE_MIN := by
  unfold Metric.classify
  rcases h with rfl | h | ⟨h1, h2⟩
  · simp
  · simp [h]
  · split
    · rfl
    · dsimp only
      rw [if_neg (by simpa using h2), if_pos (by simpa using h1)]

/-- C4 (amended).  The classification yields the minimum sentinel when the
query is empty, when the candidate's byte length exceeds 2048, or when the
candidate's code-point count exceeds 1024 *and* the code-point counts differ
— the `q == c` test runs before the 1024-char ceiling, so equal-count
oversized pairs short-circuit to the maximum sentinel instead (see the
counterexample). -/
theorem C4_min_sentinel_amended (q c : List Char) (i : Nat)
    (h : q = [] ∨ utf8Len c > params.CANDIDATE_MAX_BYTES ∨
      (c.length > params.CANDIDATE_MAX_CHARS ∧ q.length ≠ c.length)) :
    ScoreMod.score q c i = some ⟨i, params.SCORE_MIN⟩ ∧
    Lib.score q c i = some ⟨i, params.SCORE_MIN⟩ := by
  have hcl := classify_min_of q c h
  constructor
  · unfold ScoreMod.score; rw [hcl]
  · unfold Lib.score; rw [hcl]

/-- C4 witness: the sentinel at the concrete input `("", "")`. -/
theorem C4_min_sentinel_witness :
    ScoreMod.score [] [] 0 = some ⟨0, params.SCORE_MIN⟩ ∧
    Lib.score [] [] 0 = some ⟨0, params.SCORE_MIN⟩ :=
  C4_min_sentinel_amended [] [] 0 (Or.inl rfl)

set_option maxRecDepth 100000 in
/-- C4 counterexample: a candidate of 1025 code points (1025 bytes, within
the byte ceiling) paired with an equal-count query is classified by the
`q == c` test *before* the 1024-char ceiling is consulted, so `score`
returns the **maximum** sentinel, not the minimum one the claim requires. -/
theorem C4_char_ceiling_counterexample :
    params.CANDIDATE_MAX_CHARS < (List.replicate 1025 'a').length ∧
    ScoreMod.score (List.replicate 1025 'a') (List.replicate 1025 'a') 0 =
      some ⟨0, params.SCORE_MAX⟩ ∧
    Lib.score (List.replicate 1025 'a') (List.replicate 1025 'a') 0 =
      some ⟨0, params.SCORE_MAX⟩ ∧
    params.SCORE_MAX ≠ params.SCORE_MIN := by
  have h1 : utf8Len (List.replicate 1025 'a') = 1025 := by
    have ha : Char.utf8Size 'a' = 1 := rfl
    simp [utf8Len, List.map_replicate, ha, List.sum_replicate]
  have hcl : Metric.classify (List.replicate 1025 'a') (List.replicate 1025 'a') =
      Metric.score params.SCORE_MAX := by
    unfold Metric.classify
    rw [if_neg]
    · dsimp only
      rw [if_pos (beq_self_eq_true _)]
    · intro hcond
      rw [Bool.or_eq_true] at hcond
      rcases hcond with hh | hh
      · rw [decide_eq_true_eq, h1] at hh
        exact absurd hh (by decide)
      · rw [List.isEmpty_iff] at hh
        have hlen := List.length_replicate 1025 'a'
        rw [hh] at hlen
        simp at hlen
  refine ⟨by simp [params.CANDIDATE_MAX_CHARS], ?_, ?_,
    by simp [params.SCORE_MAX, params.SCORE_MIN]⟩
  · unfold ScoreMod.score; rw [hcl]
  · unfold Lib.score; rw [hcl]

theorem classify_lengths {q c : List Char} {ql cl : Nat}
    (h : Metric.classify q c = Metric.lengths ql cl) :
    ql = q.length ∧ cl = c.length ∧ q ≠ [] := by
  unfold Metric.classify at h
  split at h
  · simp at h
  · rename_i h1
    dsimp only at h
    split at h
    · simp at h
    · split at h
      · simp at h
      · injection h with e1 e2
        subst e1; subst e2
        refine ⟨rfl, rfl, ?_⟩
        intro h0
        subst h0
        simp at h1

/-! ### Row and grid lengths (the matrices keep shape `(q, c)`) -/

theorem modRowGo_length (qc : Char) (first : Bool) (gap : ℚ)
    (pE pO : List FScore) (bs : List ℚ) :
    ∀ (js : List Char) (j : Nat) (prev : FScore),
      (modRowGo qc first gap pE pO bs j prev js).1.length = js.length ∧
      (modRowGo qc first gap pE pO bs j prev js).2.length = js.length := by
  intro js
  induction js with
  | nil => intro j prev; exact ⟨rfl, rfl⟩
  | cons ch rest ih =>
    intro j prev
    unfold modRowGo
    split
    all_goals
      simp only [List.length_cons]
      exact ⟨by rw [(ih (j + 1) _).1], by rw [(ih (j + 1) _).2]⟩

theorem libRowGo_length (qc : Char) (first : Bool) (gap : ℚ)
    (pE pO : List FScore) (bs : List ℚ) :
    ∀ (js : List Char) (j : Nat) (prev : FScore),
      (libRowGo qc first gap pE pO bs j prev js).1.length = js.length ∧
      (libRowGo qc first gap pE pO bs j prev js).2.length = js.length := by
  intro js
  induction js with
  | nil => intro j prev; exact ⟨rfl, rfl⟩
  | cons ch rest ih =>
    intro j prev
    unfold libRowGo
    split
    all_goals
      simp only [List.length_cons]
      exact ⟨by rw [(ih (j + 1) _).1], by rw [(ih (j + 1) _).2]⟩

theorem modDpGo_length (cand : List Char) (bs : List ℚ) (ql : Nat) :
    ∀ (qs : List Char) (pE pO : List FScore) (i : Nat),
      pE.length = cand.length → pO.length = cand.length →
      (modDpGo cand bs ql pE pO i qs).1.length = cand.length ∧
      (modDpGo cand bs ql pE pO i qs).2.length = cand.length := by
  intro qs
  induction qs with
  | nil => intro pE pO i hE hO; exact ⟨hE, hO⟩
  | cons qc rest ih =>
    intro pE pO i hE hO
    unfold modDpGo
    dsimp only
    exact ih _ _ _ (modRowGo_length qc (i == 0) _ pE pO bs cand 0 params.SCORE_MIN).1
      (modRowGo_length qc (i == 0) _ pE pO bs cand 0 params.SCORE_MIN).2

theorem libDpGo_length (cand : List Char) (bs : List ℚ) (ql : Nat) :
    ∀ (qs : List Char) (pE pO : List FScore) (i : Nat),
      pE.length = cand.length → pO.length = cand.length →
      (libDpGo cand bs ql pE pO i qs).1.length = cand.length ∧
      (libDpGo cand bs ql pE pO i qs).2.length = cand.length := by
  intro qs
  induction qs with
  | nil => intro pE pO i hE hO; exact ⟨hE, hO⟩
  | cons qc rest ih =>
    intro pE pO i hE hO
    unfold libDpGo
    dsimp only
    exact ih _ _ _ (libRowGo_length qc (i == 0) _ pE pO bs cand 0 params.SCORE_MIN).1
      (libRowGo_length qc (i == 0) _ pE pO bs cand 0 params.SCORE_MIN).2

/-- Totality of both scorers away from the panicking corner: whenever the
query is empty (classification short-circuits) or the candidate is nonempty
(the final matrix read is in bounds), a `Score` is returned. -/
theorem score_isSome (q c : List Char) (i : Nat) (h : q = [] ∨ c ≠ []) :
    (ScoreMod.score q c i).isSome = true ∧ (Lib.score q c i).isSome = true := by
  constructor
  · unfold ScoreMod.score
    cases hcl : Metric.classify q c with
    | score s => simp
    | lengths ql cl =>
      obtain ⟨hq, hc, hqn⟩ := classify_lengths hcl
      have hc0 : c ≠ [] := h.resolve_left hqn
      have hlen : 0 < c.length := List.length_pos.mpr hc0
      dsimp only
      have hrow := (modDpGo_length c (candidate_match_bonuses c) ql q
        (List.replicate cl (FScore.fin 0)) (List.replicate cl (FScore.fin 0)) 0
        (by simp [hc]) (by simp [hc])).2
      rw [Option.isSome_iff_ne_none]
      intro hnone
      rw [Option.map_eq_none'] at hnone
      rw [List.get?_eq_none, hrow] at hnone
      subst hc
      omega
  · unfold Lib.score
    cases hcl : Metric.classify q c with
    | score s => simp
    | lengths ql cl =>
      obtain ⟨hq, hc, hqn⟩ := classify_lengths hcl
      have hc0 : c ≠ [] := h.resolve_left hqn
      have hlen : 0 < c.length := List.length_pos.mpr hc0
      dsimp only
      have hrow := (libDpGo_length c (candidate_match_bonuses c) ql q
        (List.replicate cl (FScore.fin 0)) (List.replicate cl (FScore.fin 0)) 0
        (by simp [hc]) (by simp [hc])).2
      rw [Option.isSome_iff_ne_none]
      intro hnone
      rw [Option.map_eq_none'] at hnone
      rw [List.get?_eq_none, hrow] at hnone
      subst hc
      omega

/-- C1 (amended).  Both `score` functions return a `Score` for every input in
which the query is empty or the candidate is nonempty.  (For a nonempty query
with an empty candidate the final matrix read `overall[[q - 1, c - 1]]` is out
of bounds — `c_len - 1` underflows — and the Rust code panics; see the
counterexample.) -/
theorem C1_score_total_amended (q c : List Char) (i : Nat)
    (h : q = [] ∨ c ≠ []) :
    (ScoreMod.score q c i).isSome = true ∧ (Lib.score q c i).isSome = true :=
  score_isSome q c i h

/-- C1 witness: totality at a concrete input with a nonempty candidate. -/
theorem C1_score_total_witness :
    (ScoreMod.score "a".toList "ba".toList 0).isSome = true ∧
    (Lib.score "a".toList "ba".toList 0).isSome = true :=
  C1_score_total_amended "a".toList "ba".toList 0 (Or.inr (by decide))

/-- C1 counterexample: a nonempty query with an empty candidate reaches the
DP with `c_len = 0`; the final read `overall[[q_len - 1, c_len - 1]]`
panics in Rust (modelled as `none`), so `score` is not total there. -/
theorem C1_empty_candidate_counterexample :
    ScoreMod.score "a".toList [] 0 = none ∧ Lib.score "a".toList [] 0 = none := by
  constructor <;> with_unfolding_all decide

/-! ### The DP never produces the maximum sentinel -/

def noPos (l : List FScore) : Prop := ∀ x ∈ l, x ≠ FScore.posInf

theorem add_fin_ne_posInf {a : FScore} (g : ℚ) (h : a ≠ FScore.posInf) :
    FScore.add a (FScore.fin g) ≠ FScore.posInf := by
  cases a <;> simp_all [FScore.add]

theorem max_ne_posInf {a b : FScore} (ha : a ≠ FScore.posInf)
    (hb : b ≠ FScore.posInf) : FScore.max a b ≠ FScore.posInf := by
  unfold FScore.max
  split <;> assumption

theorem getD_ne_posInf {l : List FScore} (h : noPos l) (k : Nat) {d : FScore}
    (hd : d ≠ FScore.posInf) : l.getD k d ≠ FScore.posInf := by
  induction l generalizing k with
  | nil => rw [List.getD_nil]; exact hd
  | cons x xs ih =>
    cases k with
    | zero => rw [List.getD_cons_zero]; exact h x (List.mem_cons_self x xs)
    | succ k =>
      rw [List.getD_cons_succ]
      exact ih (fun y hy => h y (List.mem_cons_of_mem x hy)) k

theorem noPos_replicate (n : Nat) : noPos (List.replicate n (FScore.fin 0)) := by
  intro x hx
  rw [List.eq_of_mem_replicate hx]
  simp

theorem modRowGo_noPos (qc : Char) (first : Bool) (gap : ℚ)
    {pE pO : List FScore} (bs : List ℚ) (hE : noPos pE) (hO : noPos pO) :
    ∀ (js : List Char) (j : Nat) (prev : FScore), prev ≠ FScore.posInf →
      noPos (modRowGo qc first gap pE pO bs j prev js).1 ∧
      noPos (modRowGo qc first gap pE pO bs j prev js).2 := by
  intro js
  induction js with
  | nil =>
    intro j prev hp
    exact ⟨fun x hx => absurd hx (List.not_mem_nil x),
      fun x hx => absurd hx (List.not_mem_nil x)⟩
  | cons ch rest ih =>
    intro j prev hp
    unfold modRowGo
    split
    · have hs : (if first = true then
            FScore.fin ((j : ℚ) * params.SCORE_GAP_LEADING + bs.getD j 0)
          else if (j != 0) = true then
            FScore.max
              (FScore.add (pO.getD (j - 1) params.SCORE_MIN)
                (FScore.fin (bs.getD j 0)))
              (FScore.add (pE.getD (j - 1) params.SCORE_MIN)
                (FScore.fin params.SCORE_MATCH_CONSECUTIVE))
          else params.SCORE_MIN) ≠ FScore.posInf := by
        split
        · simp
        · split
          · exact max_ne_posInf
              (add_fin_ne_posInf _ (getD_ne_posInf hO _ (by simp [params.SCORE_MIN])))
              (add_fin_ne_posInf _ (getD_ne_posInf hE _ (by simp [params.SCORE_MIN])))
          · simp [params.SCORE_MIN]
      have hp' := max_ne_posInf hs (add_fin_ne_posInf gap hp)
      have hrec := ih (j + 1) _ hp'
      constructor
      · intro x hx
        rcases List.mem_cons.mp hx with rfl | hx
        · exact hs
        · exact hrec.1 x hx
      · intro x hx
        rcases List.mem_cons.mp hx with rfl | hx
        · exact hp'
        · exact hrec.2 x hx
    · have hp' := add_fin_ne_posInf gap hp
      have hrec := ih (j + 1) _ hp'
      constructor
      · intro x hx
        rcases List.mem_cons.mp hx with rfl | hx
        · simp [params.SCORE_MIN]
        · exact hrec.1 x hx
      · intro x hx
        rcases List.mem_cons.mp hx with rfl | hx
        · exact hp'
        · exact hrec.2 x hx

theorem libRowGo_noPos (qc : Char) (first : Bool) (gap : ℚ)
    {pE pO : List FScore} (bs : List ℚ) (hE : noPos pE) (hO : noPos pO) :
    ∀ (js : List Char) (j : Nat) (prev : FScore), prev ≠ FScore.posInf →
      noPos (libRowGo qc first gap pE pO bs j prev js).1 ∧
      noPos (libRowGo qc first gap pE pO bs j prev js).2 := by
  intro js
  induction js with
  | nil =>
    intro j prev hp
    exact ⟨fun x hx => absurd hx (List.not_mem_nil x),
      fun x hx => absurd hx (List.not_mem_nil x)⟩
  | cons ch rest ih =>
    intro j prev hp
    unfold libRowGo
    split
    · have hs : (if first = true then
            FScore.fin ((j : ℚ) * params.SCORE_GAP_LEADING + bs.getD j 0)
          else if (j != 0) = true then
            FScore.max
              (FScore.add (pO.getD (j - 1) params.SCORE_MIN)
                (FScore.fin (bs.getD j 0)))
              (FScore.add (pE.getD (j - 1) params.SCORE_MIN)
                (FScore.fin params.SCORE_MATCH_CONSECUTIVE))
          else params.SCORE_MIN) ≠ FScore.posInf := by
        split
        · simp
        · split
          · exact max_ne_posInf
              (add_fin_ne_posInf _ (getD_ne_posInf hO _ (by simp [params.SCORE_MIN])))
              (add_fin_ne_posInf _ (getD_ne_posInf hE _ (by simp [params.SCORE_MIN])))
          · simp [params.SCORE_MIN]
      have hp' := max_ne_posInf hp (add_fin_ne_posInf gap hs)
      have hrec := ih (j + 1) _ hp'
      constructor
      · intro x hx
        rcases List.mem_cons.mp hx with rfl | hx
        · exact hp'
        · exact hrec.1 x hx
      · intro x hx
        rcases List.mem_cons.mp hx with rfl | hx
        · exact hp'
        · exact hrec.2 x hx
    · have hp' := add_fin_ne_posInf gap hp
      have hrec := ih (j + 1) _ hp'
      constructor
      · intro x hx
        rcases List.mem_cons.mp hx with rfl | hx
        · simp [params.SCORE_MIN]
        · exact hrec.1 x hx
      · intro x hx
        rcases List.mem_cons.mp hx with rfl | hx
        · exact hp'
        · exact hrec.2 x hx

theorem modDpGo_noPos (cand : List Char) (bs : List ℚ) (ql : Nat) :
    ∀ (qs : List Char) {pE pO : List FScore} (i : Nat), noPos pE → noPos pO →
      noPos (modDpGo cand bs ql pE pO i qs).1 ∧
      noPos (modDpGo cand bs ql pE pO i qs).2 := by
  intro qs
  induction qs with
  | nil => intro pE pO i hE hO; exact ⟨hE, hO⟩
  | cons qc rest ih =>
    intro pE pO i hE hO
    unfold modDpGo
    dsimp only
    have hrow := modRowGo_noPos qc (i == 0)
      (if (i == ql - 1) = true then params.SCORE_GAP_TRAILING else params.SCORE_GAP_INNER)
      bs hE hO cand 0 params.SCORE_MIN (by simp [params.SCORE_MIN])
    exact ih (i + 1) hrow.1 hrow.2

theorem libDpGo_noPos (cand : List Char) (bs : List ℚ) (ql : Nat) :
    ∀ (qs : List Char) {pE pO : List FScore} (i : Nat), noPos pE → noPos pO →
      noPos (libDpGo cand bs ql pE pO i qs).1 ∧
      noPos (libDpGo cand bs ql pE pO i qs).2 := by
  intro qs
  induction qs with
  | nil => intro pE pO i hE hO; exact ⟨hE, hO⟩
  | cons qc rest ih =>
    intro pE pO i hE hO
    unfold libDpGo
    dsimp only
    have hrow := libRowGo_noPos qc (i == 0)
      (if (i == ql - 1) = true then params.SCORE_GAP_TRAILING else params.SCORE_GAP_INNER)
      bs hE hO cand 0 params.SCORE_MIN (by simp [params.SCORE_MIN])
    exact ih (i + 1) hrow.1 hrow.2

theorem scoreMod_posInf {q c : List Char} {i : Nat} {s : Score}
    (h : ScoreMod.score q c i = some s) (hs : s.score = FScore.posInf) :
    Metric.classify q c = Metric.score FScore.posInf := by
  unfold ScoreMod.score at h
  cases hcl : Metric.classify q c with
  | lengths ql cl =>
    rw [hcl] at h
    dsimp only at h
    obtain ⟨v, hv, he⟩ := Option.map_eq_some'.mp h
    have hmem := List.get?_mem hv
    have hnp := (modDpGo_noPos c (candidate_match_bonuses c) ql q 0
      (noPos_replicate cl) (noPos_replicate cl)).2 v hmem
    rw [← he] at hs
    exact absurd hs hnp
  | score v =>
    rw [hcl] at h
    cases h
    exact congrArg Metric.score (show v = FScore.posInf from hs)

theorem scoreLib_posInf {q c : List Char} {i : Nat} {s : Score}
    (h : Lib.score q c i = some s) (hs : s.score = FScore.posInf) :
    Metric.classify q c = Metric.score FScore.posInf := by
  unfold Lib.score at h
  cases hcl : Metric.classify q c with
  | lengths ql cl =>
    rw [hcl] at h
    dsimp only at h
    obtain ⟨v, hv, he⟩ := Option.map_eq_some'.mp h
    have hmem := List.get?_mem hv
    have hnp := (libDpGo_noPos c (candidate_match_bonuses c) ql q 0
      (noPos_replicate cl) (noPos_replicate cl)).2 v hmem
    rw [← he] at hs
    exact absurd hs hnp
  | score v =>
    rw [hcl] at h
    cases h
    exact congrArg Metric.score (show v = FScore.posInf from hs)

theorem classify_posInf {q c : List Char}
    (h : Metric.classify q c = Metric.score FScore.posInf) :
    q.length = c.length := by
  unfold Metric.classify at h
  split at h
  · simp [params.SCORE_MIN] at h
  · dsimp only at h
    split at h
    · rename_i hqc
      simpa using hqc
    · split at h
      · simp [params.SCORE_MIN] at h
      · simp at h

/-- C6 (amended).  If either scorer returns the maximum sentinel, then query
and candidate have equal code-point counts.  (The `hasMatch` conjunct of the
claim is dropped: classification never re-checks the prefilter, so any
equal-count pair — matching or not — short-circuits to `+∞`; see the
counterexample.) -/
theorem C6_max_sentinel_amended (q c : List Char) (i : Nat) (s : Score)
    (h : ScoreMod.score q c i = some s ∨ Lib.score q c i = some s)
    (hs : s.score = FScore.posInf) : q.length = c.length := by
  rcases h with h | h
  · exact classify_posInf (scoreMod_posInf h hs)
  · exact classify_posInf (scoreLib_posInf h hs)

/-- C6 witness: the maximum sentinel at the concrete equal input
`("ab", "ab")`. -/
theorem C6_max_sentinel_witness :
    ("ab".toList).length = ("ab".toList).length :=
  C6_max_sentinel_amended "ab".toList "ab".toList 0 ⟨0, FScore.posInf⟩
    (Or.inl (by decide)) rfl

/-- C6 counterexample: `("a", "b")` has equal code-point counts but is not a
match; classification still returns the maximum sentinel, so the claim's
`hasMatch` conjunct is false. -/
theorem C6_max_sentinel_counterexample :
    ScoreMod.score "a".toList "b".toList 0 = some ⟨0, params.SCORE_MAX⟩ ∧
    Lib.score "a".toList "b".toList 0 = some ⟨0, params.SCORE_MAX⟩ ∧
    has_match "a".toList "b".toList = false := by
  refine ⟨by decide, by decide, by decide⟩

/-! ### The prefilter decides the folded-subsequence relation -/

theorem seek_suffix {q : Char} :
    ∀ {cs rest : List Char}, seek q cs = some rest → rest <:+ cs := by
  intro cs
  induction cs with
  | nil => intro rest h; simp [seek] at h
  | cons c cs' ih =>
    intro rest h
    unfold seek at h
    split at h
    · cases h
      exact List.suffix_cons c cs'
    · exact (ih h).trans (List.suffix_cons c cs')

theorem SubseqRel.of_suffix {qs l l' : List Char} (h : SubseqRel qs l)
    (hs : l <:+ l') : SubseqRel qs l' := by
  obtain ⟨t, rfl⟩ := hs
  induction t with
  | nil => simpa using h
  | cons x t ih => exact SubseqRel.skip ih

theorem SubseqRel.tail {q : Char} {qs : List Char} :
    ∀ {cs : List Char}, SubseqRel (q :: qs) cs → SubseqRel qs cs := by
  intro cs
  induction cs with
  | nil => intro h; cases h
  | cons c cs' ih =>
    intro h
    cases h with
    | cons hq hr => exact SubseqRel.skip hr
    | skip hr => exact SubseqRel.skip (ih hr)

theorem seek_of_subseq {q : Char} {qs : List Char} :
    ∀ {cs : List Char}, SubseqRel (q :: qs) cs →
      ∃ rest, seek q cs = some rest ∧ SubseqRel qs rest := by
  intro cs
  induction cs with
  | nil => intro h; cases h
  | cons c cs' ih =>
    intro h
    by_cases hc : charEq c q = true
    · refine ⟨cs', by simp [seek, hc], ?_⟩
      cases h with
      | cons hq hr => exact hr
      | skip hr => exact hr.tail
    · cases h with
      | cons hq hr => exact absurd (by simp [charEq, hq]) hc
      | skip hr =>
        obtain ⟨rest, hseek, hsub⟩ := ih hr
        exact ⟨rest, by simp [seek, hc, hseek], hsub⟩

theorem hasMatch_of_subseq : ∀ {qs cs : List Char},
    SubseqRel qs cs → has_match qs cs = true := by
  intro qs
  induction qs with
  | nil => intro cs _; rfl
  | cons q qs ih =>
    intro cs h
    obtain ⟨rest, hseek, hsub⟩ := seek_of_subseq h
    unfold has_match
    rw [hseek]
    exact ih hsub

theorem subseq_of_seek {q : Char} :
    ∀ {cs rest : List Char}, seek q cs = some rest →
      ∀ {qs : List Char}, SubseqRel qs rest → SubseqRel (q :: qs) cs := by
  intro cs
  induction cs with
  | nil => intro rest h; simp [seek] at h
  | cons c cs' ih =>
    intro rest h qs hr
    unfold seek at h
    split at h
    · rename_i hc
      cases h
      exact SubseqRel.cons (of_decide_eq_true hc).symm hr
    · exact SubseqRel.skip (ih h hr)

theorem subseq_of_hasMatch : ∀ {qs cs : List Char},
    has_match qs cs = true → SubseqRel qs cs := by
  intro qs
  induction qs with
  | nil => intro cs _; exact SubseqRel.nil cs
  | cons q qs ih =>
    intro cs h
    unfold has_match at h
    cases hseek : seek q cs with
    | none => rw [hseek] at h; cases h
    | some rest =>
      rw [hseek] at h
      exact subseq_of_seek hseek (ih h)

/-- C5.  `has_match q c` is true exactly when the code points of `c`,
compared through case folding, contain the code points of `q` as an ordered
(not necessarily contiguous) subsequence; in particular the empty query
matches every candidate, including the empty one. -/
theorem C5_hasMatch_iff_subsequence (q c : List Char) :
    (has_match q c = true ↔ SubseqRel q c) ∧ has_match [] c = true :=
  ⟨⟨subseq_of_hasMatch, hasMatch_of_subseq⟩, rfl⟩

/-- C5 witness: the equivalence applied at a concrete matching pair. -/
theorem C5_hasMatch_witness : SubseqRel "ca".toList "candidate".toList :=
  (C5_hasMatch_iff_subsequence "ca".toList "candidate".toList).1.mp (by decide)

/-! ### `search` -/

theorem scoreLe_total (a b : Score) : scoreLe a b || scoreLe b a := by
  rw [scoreLe_eq, scoreLe_eq]
  cases h : FScore.blt a.score b.score
  · simp
  · simp [FScore.blt_asymm h]

theorem scoreLe_trans (a b c : Score) (h1 : scoreLe a b) (h2 : scoreLe b c) :
    scoreLe a c := by
  rw [scoreLe_eq] at h1 h2 ⊢
  rw [Bool.not_eq_true'] at h1 h2 ⊢
  exact FScore.blt_false_trans h1 h2

/-- `score` carries the caller-supplied index through unchanged. -/
theorem score_index {q c : List Char} {i : Nat} {s : Score}
    (h : Lib.score q c i = some s) : s.index = i := by
  unfold Lib.score at h
  cases hcl : Metric.classify q c with
  | lengths ql cl =>
    rw [hcl] at h
    dsimp only at h
    obtain ⟨v, hv, he⟩ := Option.map_eq_some'.mp h
    rw [← he]
  | score v =>
    rw [hcl] at h
    cases h
    rfl

theorem searchGo_spec (query : List Char) :
    ∀ (cs : List (List Char)) (n : Nat),
      ∃ l, searchGo query n cs = some l ∧
        ∀ s : Score, s ∈ l ↔ ∃ k c, cs.get? k = some c ∧
          has_match query c = true ∧ Lib.score query c (n + k) = some s := by
  intro cs
  induction cs with
  | nil =>
    intro n
    refine ⟨[], rfl, ?_⟩
    intro s
    simp
  | cons c rest ih =>
    intro n
    obtain ⟨l, hl, hmem⟩ := ih (n + 1)
    by_cases hm : has_match query c = true
    · have hsome : (Lib.score query c n).isSome = true := by
        cases hq : query with
        | nil => exact (score_isSome [] c n (Or.inl rfl)).2
        | cons q0 qs0 =>
          have hc0 : c ≠ [] := by
            intro h0
            rw [hq, h0] at hm
            simp [has_match, seek] at hm
          exact (score_isSome (q0 :: qs0) c n (Or.inr hc0)).2
      obtain ⟨s0, hs0⟩ := Option.isSome_iff_exists.mp hsome
      refine ⟨s0 :: l, ?_, ?_⟩
      · unfold searchGo
        rw [if_pos hm, hs0, hl]
      · intro s
        rw [List.mem_cons, hmem s]
        constructor
        · rintro (rfl | ⟨k, c', h1, h2, h3⟩)
          · refine ⟨0, c, rfl, hm, ?_⟩
            simpa using hs0
          · refine ⟨k + 1, c', by simpa using h1, h2, ?_⟩
            have he : n + (k + 1) = n + 1 + k := by omega
            rw [he]; exact h3
        · rintro ⟨k, c', h1, h2, h3⟩
          cases k with
          | zero =>
            left
            rw [List.get?_cons_zero] at h1
            injection h1 with h1
            subst h1
            rw [Nat.add_zero] at h3
            rw [hs0] at h3
            injection h3 with h3
            exact h3.symm
          | succ k =>
            right
            refine ⟨k, c', by simpa using h1, h2, ?_⟩
            have he : n + 1 + k = n + (k + 1) := by omega
            rw [he]; exact h3
    · refine ⟨l, ?_, ?_⟩
      · unfold searchGo
        rw [if_neg hm]
        exact hl
      · intro s
        rw [hmem s]
        constructor
        · rintro ⟨k, c', h1, h2, h3⟩
          refine ⟨k + 1, c', by simpa using h1, h2, ?_⟩
          have he : n + (k + 1) = n + 1 + k := by omega
          rw [he]; exact h3
        · rintro ⟨k, c', h1, h2, h3⟩
          cases k with
          | zero =>
            rw [List.get?_cons_zero] at h1
            injection h1 with h1
            subst h1
            exact absurd h2 hm
          | succ k =>
            refine ⟨k, c', by simpa using h1, h2, ?_⟩
            have he : n + 1 + k = n + (k + 1) := by omega
            rw [he]; exact h3

/-- C7.  `search` never panics and returns exactly one result per candidate
passing `has_match` (non-matching candidates are absent entirely): a `Score`
value `s` is in the output iff position `s.index` holds a matching candidate
and `s` is its score; and the output is sorted by descending score. -/
theorem C7_search_characterization (query : List Char)
    (candidates : List (List Char)) :
    ∃ l, search query candidates = some l ∧
      (∀ s : Score, s ∈ l ↔ ∃ c, candidates.get? s.index = some c ∧
        has_match query c = true ∧ Lib.score query c s.index = some s) ∧
      l.Pairwise (fun a b => FScore.blt a.score b.score = false) := by
  obtain ⟨l0, hl0, hmem⟩ := searchGo_spec query candidates 0
  refine ⟨l0.mergeSort scoreLe, ?_, ?_, ?_⟩
  · unfold search
    rw [hl0]
    rfl
  · intro s
    rw [(List.mergeSort_perm l0 scoreLe).mem_iff, hmem s]
    constructor
    · rintro ⟨k, c, h1, h2, h3⟩
      rw [Nat.zero_add] at h3
      have hk : s.index = k := score_index h3
      exact ⟨c, by rw [hk]; exact h1, h2, by rw [hk]; exact h3⟩
    · rintro ⟨c, h1, h2, h3⟩
      exact ⟨s.index, c, h1, h2, by rw [Nat.zero_add]; exact h3⟩
  · have hp := List.sorted_mergeSort scoreLe_trans scoreLe_total l0
    refine hp.imp ?_
    intro a b hab
    rw [scoreLe_eq, Bool.not_eq_true'] at hab
    exact hab

/-- C7 witness: a concrete search that returns a result list. -/
theorem C7_search_witness : (search "a".toList ["ab".toList]).isSome = true := by
  obtain ⟨l, hl, _, _⟩ := C7_search_characterization "a".toList ["ab".toList]
  rw [hl]
  rfl

end Fuzzy
